import Mathlib

/-!
Shallow embedding of the job-discovery pipeline of `src/agents/discovery.py`
(the `run_discovery` orchestrator and its helpers `generate_external_id`,
`_scoring_context`, `score_job`, `_prefilter`), together with a small-step
model of the `asyncio.Semaphore(5)` discipline bounding concurrent scoring
calls.

Modelling conventions:
* Python strings are lists of characters (`Str`); `str.lower()` is
  `Char.toLower` mapped over the list; Python's substring test `a in b` is
  `isSubstrOf`.
* A raw provider job dict is the structure `Job`; a field a dict may lack is
  an `Option` (`job.get(k, d)` is `Option.getD`).
* `hashlib.md5(url).hexdigest()` is an arbitrary digest function
  `md5 : Str → Str` threaded through the definitions; no claim depends on
  the concrete digest, only on it being a deterministic function of the URL.
* `asyncio.gather(..., return_exceptions=True)` returns outcomes in
  submission order; a task outcome is `Except Unit _` (error = the task
  raised).  The oracle's behaviour for the i-th scoring task is an arbitrary
  function `oracle : Nat → OracleOutcome`.
* JSON numbers are rationals (`ℚ`); a decoded oracle response is
  `ParsedResp`, recording whether the keys `overall_score` / `breakdown`
  are present and whether `overall_score` is a number (`JsonVal.num`) or
  some non-numeric JSON value (`JsonVal.other`); comparing a non-number
  against the threshold raises `TypeError` in Python, a missing key raises
  `KeyError`, both modelled by `RunError`.
* Scores are compared with `score_data["overall_score"] >= min_score`,
  i.e. `min_score ≤ q`.
-/

namespace JobHunter

/-- Python strings, modelled as lists of characters. -/
abbrev Str := List Char

/-- Model of `str.lower()`. -/
def lowerStr (s : Str) : Str := s.map Char.toLower

/-- Boolean list-prefix test (needle, haystack). -/
def isPrefixList : Str → Str → Bool
  | [], _ => true
  | _ :: _, [] => false
  | a :: as, b :: bs => a == b && isPrefixList as bs

/-- Model of Python's substring containment `needle in hay`. -/
def isSubstrOf (needle : Str) : Str → Bool
  | [] => needle.isEmpty
  | c :: rest => isPrefixList needle (c :: rest) || isSubstrOf needle rest

/-- One entry of a listing's `apply_options` array; only its `link` field is
read by the pipeline (line 170 of `discovery.py`). -/
structure ApplyOption where
  link : Option Str
deriving DecidableEq

/-- A raw job listing dict as read by `discovery.py`.  `posted_at` stands for
`job.get("detected_extensions", {}).get("posted_at")`. -/
structure Job where
  title : Option Str
  company_name : Option Str
  location : Option Str
  description : Option Str
  apply_options : Option (List ApplyOption)
  link : Option Str
  posted_at : Option Str
deriving DecidableEq

/-- The canonical URL of a listing, lines 168–173 of `discovery.py`:
`apply_options = job.get("apply_options") or []`, then
`url = (apply_options[0].get("link", "") if apply_options else
job.get("link", "")) or job.get("link", "")`.  Python's `or` falls back when
the left operand is the empty (falsy) string. -/
def canonicalUrl (job : Job) : Str :=
  let opts := job.apply_options.getD []
  let u : Str :=
    match opts with
    | [] => job.link.getD []
    | a :: _ => a.link.getD []
  if u.isEmpty then job.link.getD [] else u

/-- `generate_external_id` (lines 50–52): the MD5 hex digest of the URL,
modelled as an arbitrary digest function applied to the URL. -/
def generate_external_id (md5 : Str → Str) (url : Str) : Str := md5 url

/-- The external id the dedup loop computes for a job (line 174). -/
def eidOfJob (md5 : Str → Str) (job : Job) : Str :=
  generate_external_id md5 (canonicalUrl job)

/-- The substring the prefilter looks for in the description. -/
def remoteStr : Str := "remote".toList

/-- `_prefilter` (lines 122–138): keep a job unless its lower-cased title
contains an excluded keyword, or its lower-cased location contains a
dealbreaker while its lower-cased description does not contain "remote". -/
def _prefilter (job : Job) (exclude_keywords dealbreakers : List Str) : Bool :=
  let title := lowerStr (job.title.getD [])
  if exclude_keywords.any (fun kw => isSubstrOf kw title) then false
  else
    let location := lowerStr (job.location.getD [])
    let description := lowerStr (job.description.getD [])
    if dealbreakers.any (fun db => isSubstrOf db location) && !(isSubstrOf remoteStr description) then
      false
    else true

/-- The `(external_id, url, job)` triple appended to `candidates`
(line 179). -/
structure Candidate where
  external_id : Str
  url : Str
  job : Job
deriving DecidableEq

/-- Build the candidate triple for a job. -/
def toCandidate (md5 : Str → Str) (job : Job) : Candidate :=
  { external_id := eidOfJob md5 job, url := canonicalUrl job, job := job }

/-- The fused dedup + prefilter loop of lines 162–179: the `seen` set is
updated for every listing (also prefilter-rejected ones); a listing whose
external id was already seen is skipped; a surviving listing is appended to
`candidates` only when `_prefilter` keeps it. -/
def dedupPrefilterAux (md5 : Str → Str) (ek db : List Str) (seen : List Str) :
    List Job → List Candidate
  | [] => []
  | job :: rest =>
    let eid := eidOfJob md5 job
    if eid ∈ seen then
      dedupPrefilterAux md5 ek db seen rest
    else if _prefilter job ek db then
      toCandidate md5 job :: dedupPrefilterAux md5 ek db (eid :: seen) rest
    else
      dedupPrefilterAux md5 ek db (eid :: seen) rest

/-- Dedup + prefilter starting from an empty `seen` set. -/
def dedupPrefilter (md5 : Str → Str) (ek db : List Str) (jobs : List Job) :
    List Candidate :=
  dedupPrefilterAux md5 ek db [] jobs

/-- The pure deduplication stage alone (the spec's Deduplicator): keep the
first listing producing each external id, drop later repeats. -/
def dedupAux (md5 : Str → Str) (seen : List Str) : List Job → List Job
  | [] => []
  | job :: rest =>
    let eid := eidOfJob md5 job
    if eid ∈ seen then dedupAux md5 seen rest
    else job :: dedupAux md5 (eid :: seen) rest

/-- Deduplication of a flattened listing sequence from an empty seen set. -/
def dedupList (md5 : Str → Str) (jobs : List Job) : List Job :=
  dedupAux md5 [] jobs

/-- Flattening of `search_results` (lines 164–166): iterate outcomes in query
order, skip outcomes that are exceptions, concatenate the rest. -/
def flattenResults : List (Except Unit (List Job)) → List Job
  | [] => []
  | Except.error _ :: rest => flattenResults rest
  | Except.ok jobs :: rest => jobs ++ flattenResults rest

/-- A JSON value as far as the aggregation loop inspects it: a number, or
anything non-numeric. -/
inductive JsonVal where
  | num (q : ℚ)
  | other
deriving DecidableEq

/-- A successfully JSON-decoded oracle response: whether the keys
`overall_score` and `breakdown` are present, and what kind of value
`overall_score` holds. -/
structure ParsedResp where
  overall_score : Option JsonVal
  breakdown : Option JsonVal
deriving DecidableEq

/-- Outcome of one `score_job` call: the call raised (API error, or
`json.loads` failed on the response text), or it returned a decoded JSON
value. -/
inductive OracleOutcome where
  | exn
  | parsed (resp : ParsedResp)
deriving DecidableEq

/-- The preference dict, with every key the pipeline reads made optional
(a missing key raises `KeyError` at its read site).  The last six fields are
read only inside `_scoring_context` (lines 77–86), i.e. only during a
`score_job` call; their values never influence control flow in the core, so
only their presence is recorded. -/
structure Preferences where
  exclude_keywords : Option (List Str)
  dealbreakers : Option (List Str)
  minimum_score_to_surface : Option ℚ
  search_queries : Option (List Str)
  target_titles : Option Unit
  location_requirement : Option Unit
  minimum_base_salary : Option Unit
  preferred_sizes : Option Unit
  industries_preferred : Option Unit
  weights : Option Unit
deriving DecidableEq

/-- Whether `_scoring_context(preferences)` succeeds, i.e. all six fields it
reads are present.  When it fails, the `KeyError` is raised inside the
scoring coroutine, before the oracle API call, and is captured by
`asyncio.gather(..., return_exceptions=True)`. -/
def scoringContextOk (p : Preferences) : Bool :=
  p.target_titles.isSome && p.location_requirement.isSome &&
    p.minimum_base_salary.isSome && p.preferred_sizes.isSome &&
    p.industries_preferred.isSome && p.weights.isSome

/-- The `scored` list (lines 188–191): one outcome per candidate, in
submission order (which `asyncio.gather` preserves regardless of completion
order).  The i-th task calls the oracle only if `_scoring_context` succeeds;
otherwise the task raises before reaching the API. -/
def scoreAllFrom (ctxOk : Bool) (oracle : Nat → OracleOutcome) (i : Nat) :
    List Candidate → List (Except Unit (Candidate × ParsedResp))
  | [] => []
  | c :: cs =>
    (if ctxOk then
      match oracle i with
      | OracleOutcome.exn => Except.error ()
      | OracleOutcome.parsed r => Except.ok (c, r)
     else Except.error ()) :: scoreAllFrom ctxOk oracle (i + 1) cs

/-- Scoring outcomes for a candidate list, indices starting at 0. -/
def scoreAll (ctxOk : Bool) (oracle : Nat → OracleOutcome) (cands : List Candidate) :
    List (Except Unit (Candidate × ParsedResp)) :=
  scoreAllFrom ctxOk oracle 0 cands

/-- The external id carried by a successful scoring outcome. -/
def scoredEid : Except Unit (Candidate × ParsedResp) → Option Str
  | Except.ok (c, _) => some c.external_id
  | Except.error _ => none

/-- The string "Unknown", the default for absent title/company/location in
the output dict (lines 201–203). -/
def unknownStr : Str := "Unknown".toList

/-- One entry of the `all_jobs` output list (lines 199–211).  The constant
`"source": "google_jobs"` field is omitted. -/
structure OutJob where
  external_id : Str
  title : Str
  company : Str
  location : Str
  description : Str
  url : Str
  posted_date : Option Str
  score : ℚ
  score_breakdown : JsonVal
  raw_data : Job
deriving DecidableEq

/-- Build the output dict for a candidate that passed the threshold. -/
def mkOut (c : Candidate) (q : ℚ) (b : JsonVal) : OutJob :=
  { external_id := c.external_id
    title := c.job.title.getD unknownStr
    company := c.job.company_name.getD unknownStr
    location := c.job.location.getD unknownStr
    description := c.job.description.getD []
    url := c.url
    posted_date := c.job.posted_at
    score := q
    score_breakdown := b
    raw_data := c.job }

/-- How a run can abort inside `run_discovery` itself: an uncaught
`KeyError`/`TypeError` in the aggregation loop, or a `KeyError` while the
preference fields are read before the searches. -/
inductive RunError where
  | keyError
  | typeError
  | configError
deriving DecidableEq

/-- The aggregation loop of lines 193–211, iterating `scored` in order.
Outcomes that are exceptions are skipped (lines 195–196).  For a successful
outcome, `score_data["overall_score"]` raises `KeyError` when the key is
absent (also `TypeError` when the decoded value is not a dict, folded into
the same missing-key case here); comparing a non-numeric value with
`min_score` raises `TypeError`; a candidate at or above the threshold then
reads `score_data["breakdown"]`, raising `KeyError` when absent.  Any such
exception propagates out of `run_discovery` and aborts the run. -/
def aggregate (m : ℚ) :
    List (Except Unit (Candidate × ParsedResp)) → Except RunError (List OutJob)
  | [] => Except.ok []
  | Except.error _ :: rest => aggregate m rest
  | Except.ok (c, r) :: rest =>
    match r.overall_score with
    | none => Except.error RunError.keyError
    | some JsonVal.other => Except.error RunError.typeError
    | some (JsonVal.num q) =>
      if m ≤ q then
        match r.breakdown with
        | none => Except.error RunError.keyError
        | some b => (aggregate m rest).map (fun out => mkOut c q b :: out)
      else aggregate m rest

/-- The ordering used by the final sort: descending by `score`. -/
def scoreGE (a b : OutJob) : Prop := b.score ≤ a.score

instance : DecidableRel scoreGE :=
  fun a b => inferInstanceAs (Decidable (b.score ≤ a.score))

instance : IsTotal OutJob scoreGE :=
  ⟨fun a b => le_total b.score a.score⟩

instance : IsTrans OutJob scoreGE :=
  ⟨fun _ _ _ h1 h2 => le_trans h2 h1⟩

/-- `all_jobs.sort(key=lambda x: x["score"], reverse=True)` (line 213):
Python's sort is stable, and a stable descending sort is extensionally the
insertion sort that inserts each earlier element before the first
later-listed element of smaller-or-equal score. -/
def sortDesc (l : List OutJob) : List OutJob := l.insertionSort scoreGE

/-- The external calls a run performs: the queries issued to the search
provider, and the number of oracle invocations. -/
structure CallTrace where
  searchCalls : List Str
  oracleCalls : Nat
deriving DecidableEq

/-- Stage 2 of `run_discovery`: candidates from the flattened, query-ordered
search outcomes.  `provider i` is the outcome of the search for the i-th
configured query. -/
def discoveryCandidates (md5 : Str → Str) (ek db : List Str) (queries : List Str)
    (provider : Nat → Except Unit (List Job)) : List Candidate :=
  dedupPrefilter md5 ek db (flattenResults ((List.range queries.length).map provider))

/-- Stages 3–4 of `run_discovery` before the sort: score the candidates and
run the aggregation loop. -/
def preRanked (md5 : Str → Str) (ek db : List Str) (minScore : ℚ) (queries : List Str)
    (provider : Nat → Except Unit (List Job)) (ctxOk : Bool)
    (oracle : Nat → OracleOutcome) : Except RunError (List OutJob) :=
  aggregate minScore (scoreAll ctxOk oracle (discoveryCandidates md5 ek db queries provider))

/-- Stages 2–5 of `run_discovery`: dedup + prefilter, bounded scoring,
aggregation, final stable descending sort. -/
def pipelineCore (md5 : Str → Str) (ek db : List Str) (minScore : ℚ) (queries : List Str)
    (provider : Nat → Except Unit (List Job)) (ctxOk : Bool)
    (oracle : Nat → OracleOutcome) : Except RunError (List OutJob) :=
  (preRanked md5 ek db minScore queries provider ctxOk oracle).map sortDesc

/-- `run_discovery` (lines 141–214).  Lines 151–153 read
`preferences["discovery"]["exclude_keywords"]`,
`preferences["location"]["dealbreakers"]` and
`preferences["scoring"]["minimum_score_to_surface"]`, and line 157 reads
`preferences["search_queries"]` while building the coroutine list, all
before any search executes: a missing one of these four aborts the run with
no external call made.  The excluded keywords and dealbreakers are
lower-cased at load.  The second component is the call trace: which searches
ran and how many oracle calls were made (zero when `_scoring_context`
raises inside every scoring task). -/
def run_discovery (md5 : Str → Str) (provider : Nat → Except Unit (List Job))
    (oracle : Nat → OracleOutcome) (prefs : Preferences) :
    Except RunError (List OutJob) × CallTrace :=
  match prefs.exclude_keywords, prefs.dealbreakers,
      prefs.minimum_score_to_surface, prefs.search_queries with
  | some ek0, some db0, some m, some qs =>
    let ek := ek0.map lowerStr
    let db := db0.map lowerStr
    let ctxOk := scoringContextOk prefs
    (pipelineCore md5 ek db m qs provider ctxOk oracle,
     { searchCalls := qs
       oracleCalls :=
         if ctxOk then (discoveryCandidates md5 ek db qs provider).length else 0 })
  | _, _, _, _ => (Except.error RunError.configError, { searchCalls := [], oracleCalls := 0 })

/-!
Small-step model of the bounded scorer's concurrency discipline
(lines 181–191): `semaphore = asyncio.Semaphore(5)`; each `_score` task does
`async with semaphore:` around its oracle call.  A task is waiting (it has
not yet acquired a slot), in flight (it holds a slot, its oracle call is
executing), or done (it released its slot — `async with` releases also when
the body raises).  A scheduler step either lets a waiting task acquire the
semaphore — possible only when the counter is positive — or lets an
in-flight task finish and release.
-/

/-- The state of one `_score` task with respect to the semaphore. -/
inductive TaskState where
  | waiting
  | inflight
  | done
deriving DecidableEq

/-- State of the bounded scorer: the semaphore counter and the per-task
states. -/
structure SchedState where
  sem : Nat
  tasks : List TaskState
deriving DecidableEq

/-- Number of oracle calls currently in flight. -/
def countInflight : List TaskState → Nat
  | [] => 0
  | t :: ts => (if t = TaskState.inflight then 1 else 0) + countInflight ts

/-- One scheduler step of the bounded scorer. -/
inductive SemStep : SchedState → SchedState → Prop
  | acquire (i : Nat) (s : SchedState) (hsem : 0 < s.sem)
      (ht : s.tasks.get? i = some TaskState.waiting) :
      SemStep s { sem := s.sem - 1, tasks := s.tasks.set i TaskState.inflight }
  | release (i : Nat) (s : SchedState)
      (ht : s.tasks.get? i = some TaskState.inflight) :
      SemStep s { sem := s.sem + 1, tasks := s.tasks.set i TaskState.done }

/-- Initial state for `n` surviving candidates: `asyncio.Semaphore(5)` and
every `_score` task still waiting. -/
def initSched (n : Nat) : SchedState :=
  { sem := 5, tasks := List.replicate n TaskState.waiting }

/-- States reachable from `s0` by scheduler steps. -/
inductive SchedReachable (s0 : SchedState) : SchedState → Prop
  | refl : SchedReachable s0 s0
  | step {s s' : SchedState} :
      SchedReachable s0 s → SemStep s s' → SchedReachable s0 s'

/-- Replace a failed search outcome by an empty success, leaving successful
outcomes unchanged. -/
def neutralizeResult : Except Unit (List Job) → Except Unit (List Job)
  | Except.error _ => Except.ok []
  | Except.ok jobs => Except.ok jobs

/-- A provider whose failing queries are replaced by empty successes. -/
def neutralizeProvider (p : Nat → Except Unit (List Job)) :
    Nat → Except Unit (List Job) :=
  fun i => neutralizeResult (p i)

/-- The canonical-URL rule exactly as claim C8 words it: the first
apply-option link whenever the apply-options collection is present and
non-empty, otherwise the generic link field (spec-worded definition, for
comparison with `canonicalUrl`, which is taken from the source). -/
def canonicalUrlClaimed (job : Job) : Str :=
  match job.apply_options.getD [] with
  | [] => job.link.getD []
  | a :: _ => a.link.getD []

/-- The amended canonical-URL rule: the first apply-option link when the
apply-options collection is non-empty and that link is itself non-empty;
in every other case the generic link field, defaulting to the empty
string. -/
def canonicalUrlWithFallback (job : Job) : Str :=
  match job.apply_options.getD [] with
  | [] => job.link.getD []
  | a :: _ =>
    if (a.link.getD []).isEmpty then job.link.getD [] else a.link.getD []

end JobHunter

deriving instance DecidableEq for Except

namespace JobHunter

/-!
Concrete fixtures used by counterexamples and witnesses.  `idDigest` is a
concrete digest function (every claim is proved for an arbitrary digest;
the fixtures instantiate it with the identity).
-/

/-- A concrete digest function for concrete runs. -/
def idDigest : Str → Str := fun s => s

/-- A remote senior-PM listing with URL "u2"; passes the prefilter. -/
def jobSenior : Job :=
  { title := some "Senior PM".toList, company_name := some "Acme".toList,
    location := some "New York".toList,
    description := some "fully remote role".toList,
    apply_options := none, link := some "u2".toList, posted_at := none }

/-- A second remote senior-PM listing with URL "u3"; passes the
prefilter. -/
def jobSenior2 : Job :=
  { title := some "Senior PM II".toList, company_name := some "Beta".toList,
    location := some "Austin".toList,
    description := some "remote friendly".toList,
    apply_options := none, link := some "u3".toList, posted_at := none }

/-- An office-manager listing with URL "u1"; its title contains the excluded
keyword "office manager", so the prefilter rejects it. -/
def jobOffice : Job :=
  { title := some "Office Manager".toList, company_name := none,
    location := none, description := none,
    apply_options := none, link := some "u1".toList, posted_at := none }

/-- A senior-PM listing sharing URL "u1" with `jobOffice`; it would pass the
prefilter on its own. -/
def jobSeniorU1 : Job :=
  { title := some "Senior PM".toList, company_name := some "Gamma".toList,
    location := some "Remote".toList, description := some "remote".toList,
    apply_options := none, link := some "u1".toList, posted_at := none }

/-- A listing whose apply-options collection is non-empty but whose first
apply-option link is absent, while the generic link field is "ux". -/
def jobEmptyApply : Job :=
  { title := some "PM".toList, company_name := none, location := none,
    description := none, apply_options := some [{ link := none }],
    link := some "ux".toList, posted_at := none }

/-- A preference dict with every field present: one query, excluded keyword
"Office Manager", dealbreaker "on-site", minimum score 1. -/
def prefsFull : Preferences :=
  { exclude_keywords := some ["Office Manager".toList],
    dealbreakers := some ["on-site".toList],
    minimum_score_to_surface := some 1,
    search_queries := some ["product manager remote".toList],
    target_titles := some (), location_requirement := some (),
    minimum_base_salary := some (), preferred_sizes := some (),
    industries_preferred := some (), weights := some () }

/-- `prefsFull` with the required field `target_titles` removed; that field
is read only inside `_scoring_context`, during scoring. -/
def prefsNoTitles : Preferences :=
  { prefsFull with target_titles := none }

/-- A provider answering the single configured query with two distinct
surviving listings. -/
def provTwo : Nat → Except Unit (List Job) :=
  fun _ => Except.ok [jobSenior, jobSenior2]

/-- A provider answering the single configured query with one surviving
listing. -/
def provOne : Nat → Except Unit (List Job) :=
  fun _ => Except.ok [jobSenior]

/-- An oracle returning a well-formed passing score for every candidate. -/
def oracGood : Nat → OracleOutcome :=
  fun _ => OracleOutcome.parsed
    { overall_score := some (JsonVal.num 2), breakdown := some JsonVal.other }

/-- An oracle whose first response is well formed and passing while its
second response is valid JSON with no `overall_score` key (e.g. the literal
text "\x7b\x7d", which `json.loads` decodes to an empty dict). -/
def oracGoodBad : Nat → OracleOutcome :=
  fun i =>
    if i = 0 then
      OracleOutcome.parsed
        { overall_score := some (JsonVal.num 2), breakdown := some JsonVal.other }
    else OracleOutcome.parsed { overall_score := none, breakdown := none }

/-- Lower-cased excluded keywords of `prefsFull`. -/
def ekFull : List Str := ["office manager".toList]

/-- Lower-cased dealbreakers of `prefsFull`. -/
def dbFull : List Str := ["on-site".toList]

/-- The query list of `prefsFull`. -/
def qsFull : List Str := ["product manager remote".toList]

/-- The ranked list produced by the concrete two-candidate run: both
candidates score 2, so they surface in discovery order. -/
def preTwo : List OutJob :=
  [mkOut (toCandidate idDigest jobSenior) 2 JsonVal.other,
   mkOut (toCandidate idDigest jobSenior2) 2 JsonVal.other]

/-- The output of the concrete one-candidate run. -/
def outOne : List OutJob :=
  [mkOut (toCandidate idDigest jobSenior) 2 JsonVal.other]

/-!
Lemmas about the deduplication stage.
-/

theorem dedupAux_sublist (md5 : Str → Str) :
    ∀ (seen : List Str) (l : List Job), List.Sublist (dedupAux md5 seen l) l := by
  intro seen l
  induction l generalizing seen with
  | nil => simp [dedupAux]
  | cons j rest ih =>
    simp only [dedupAux]
    split
    · exact List.Sublist.cons _ (ih seen)
    · exact List.Sublist.cons₂ _ (ih _)

theorem dedupAux_nodup (md5 : Str → Str) :
    ∀ (seen : List Str) (l : List Job),
      ((dedupAux md5 seen l).map (eidOfJob md5)).Nodup ∧
        ∀ j ∈ dedupAux md5 seen l, eidOfJob md5 j ∉ seen := by
  intro seen l
  induction l generalizing seen with
  | nil => simp [dedupAux]
  | cons j rest ih =>
    simp only [dedupAux]
    split
    · rcases ih seen with ⟨h1, h2⟩
      exact ⟨h1, h2⟩
    · rename_i hnot
      rcases ih (eidOfJob md5 j :: seen) with ⟨h1, h2⟩
      refine ⟨?_, ?_⟩
      · simp only [List.map_cons, List.nodup_cons]
        refine ⟨?_, h1⟩
        intro hmem
        rcases List.mem_map.mp hmem with ⟨x, hx, hex⟩
        exact (h2 x hx) (by rw [hex]; exact List.mem_cons_self _ _)
      · intro x hx
        rcases List.mem_cons.mp hx with h | h
        · subst h; exact hnot
        · intro hc
          exact (h2 x h) (List.mem_cons_of_mem _ hc)

theorem dedupAux_filter_take (md5 : Str → Str) (e : Str) :
    ∀ (seen : List Str) (l : List Job),
      (dedupAux md5 seen l).filter (fun j => decide (eidOfJob md5 j = e)) =
        if e ∈ seen then []
        else (l.filter (fun j => decide (eidOfJob md5 j = e))).take 1 := by
  intro seen l
  induction l generalizing seen with
  | nil => simp [dedupAux]
  | cons j rest ih =>
    by_cases hj : eidOfJob md5 j = e
    · by_cases hs : e ∈ seen
      · have hjs : eidOfJob md5 j ∈ seen := by rw [hj]; exact hs
        simp only [dedupAux, if_pos hjs]
        rw [ih seen]
        simp [hs]
      · have hjs : eidOfJob md5 j ∉ seen := by rw [hj]; exact hs
        simp only [dedupAux, if_neg hjs]
        rw [List.filter_cons, List.filter_cons]
        have h1 : (decide (eidOfJob md5 j = e)) = true := by simp [hj]
        rw [h1]
        simp only [if_pos]
        rw [ih (eidOfJob md5 j :: seen)]
        have hes : e ∈ eidOfJob md5 j :: seen := by
          rw [hj]; exact List.mem_cons_self _ _
        simp [hes, hs]
    · by_cases hs : e ∈ seen
      · by_cases hjs : eidOfJob md5 j ∈ seen
        · simp only [dedupAux, if_pos hjs]
          rw [ih seen]; simp [hs]
        · simp only [dedupAux, if_neg hjs]
          rw [List.filter_cons]
          have hes : e ∈ eidOfJob md5 j :: seen := List.mem_cons_of_mem _ hs
          simp [hj, ih (eidOfJob md5 j :: seen), hes, hs]
      · by_cases hjs : eidOfJob md5 j ∈ seen
        · simp only [dedupAux, if_pos hjs]
          rw [ih seen, List.filter_cons]
          simp [hj, hs]
        · simp only [dedupAux, if_neg hjs]
          rw [List.filter_cons, List.filter_cons]
          have hes : e ∉ eidOfJob md5 j :: seen := by
            intro hc
            rcases List.mem_cons.mp hc with h | h
            · exact hj h.symm
            · exact hs h
          simp [hj, ih (eidOfJob md5 j :: seen), hes, hs]

theorem dedupPrefilterAux_eq_filterMap (md5 : Str → Str) (ek db : List Str) :
    ∀ (seen : List Str) (l : List Job),
      dedupPrefilterAux md5 ek db seen l =
        (dedupAux md5 seen l).filterMap
          (fun j => if _prefilter j ek db then some (toCandidate md5 j) else none) := by
  intro seen l
  induction l generalizing seen with
  | nil => simp [dedupPrefilterAux, dedupAux]
  | cons j rest ih =>
    simp only [dedupPrefilterAux, dedupAux]
    by_cases h1 : eidOfJob md5 j ∈ seen
    · simp [h1, ih seen]
    · by_cases h2 : _prefilter j ek db
      · simp [h1, h2, ih (eidOfJob md5 j :: seen), List.filterMap_cons]
      · simp [h1, h2, ih (eidOfJob md5 j :: seen), List.filterMap_cons]

theorem mem_dedupPrefilter (md5 : Str → Str) (ek db : List Str) (l : List Job)
    (c : Candidate) (hc : c ∈ dedupPrefilter md5 ek db l) :
    ∃ j ∈ dedupList md5 l, c = toCandidate md5 j ∧ _prefilter j ek db = true := by
  rw [dedupPrefilter, dedupPrefilterAux_eq_filterMap] at hc
  rcases List.mem_filterMap.mp hc with ⟨j, hj, hfj⟩
  by_cases hp : _prefilter j ek db
  · rw [if_pos hp] at hfj
    have hcj : c = toCandidate md5 j := by
      cases hfj; rfl
    exact ⟨j, hj, hcj, hp⟩
  · simp [hp] at hfj

theorem dedupList_filter_take (md5 : Str → Str) (e : Str) (jobs : List Job) :
    (dedupList md5 jobs).filter (fun j => decide (eidOfJob md5 j = e)) =
      (jobs.filter (fun j => decide (eidOfJob md5 j = e))).take 1 := by
  have h := dedupAux_filter_take md5 e [] jobs
  simpa [dedupList] using h

theorem prefilter_true_iff (job : Job) (ek db : List Str) :
    _prefilter job ek db = true ↔
      ((∀ kw ∈ ek, isSubstrOf kw (lowerStr (job.title.getD [])) = false) ∧
       ((∀ d ∈ db, isSubstrOf d (lowerStr (job.location.getD [])) = false) ∨
        isSubstrOf remoteStr (lowerStr (job.description.getD [])) = true)) := by
  simp only [_prefilter]
  by_cases h1 : ek.any (fun kw => isSubstrOf kw (lowerStr (job.title.getD []))) = true
  · rw [if_pos h1]
    simp only [Bool.false_eq_true, false_iff]
    rcases List.any_eq_true.mp h1 with ⟨kw, hkw, hsub⟩
    intro hcon
    have hzero := hcon.1 kw hkw
    rw [hzero] at hsub
    cases hsub
  · rw [if_neg h1]
    have hek : ∀ kw ∈ ek, isSubstrOf kw (lowerStr (job.title.getD [])) = false := by
      intro kw hkw
      cases hb : isSubstrOf kw (lowerStr (job.title.getD [])) with
      | false => rfl
      | true => exact absurd (List.any_eq_true.mpr ⟨kw, hkw, hb⟩) h1
    by_cases h2 : (db.any (fun d => isSubstrOf d (lowerStr (job.location.getD []))) &&
        !(isSubstrOf remoteStr (lowerStr (job.description.getD [])))) = true
    · rw [if_pos h2]
      simp only [Bool.false_eq_true, false_iff]
      intro hcon
      rcases Bool.and_eq_true_iff.mp h2 with ⟨h2a, h2b⟩
      rcases hcon.2 with hl | hr
      · rcases List.any_eq_true.mp h2a with ⟨d, hd, hds⟩
        rw [hl d hd] at hds
        cases hds
      · rw [hr] at h2b
        cases h2b
    · rw [if_neg h2]
      simp only [true_iff]
      refine ⟨hek, ?_⟩
      by_cases h3 : isSubstrOf remoteStr (lowerStr (job.description.getD [])) = true
      · exact Or.inr h3
      · left
        intro d hd
        cases hb : isSubstrOf d (lowerStr (job.location.getD [])) with
        | false => rfl
        | true =>
          exfalso
          apply h2
          refine Bool.and_eq_true_iff.mpr ⟨List.any_eq_true.mpr ⟨d, hd, hb⟩, ?_⟩
          cases hb3 : isSubstrOf remoteStr (lowerStr (job.description.getD [])) with
          | false => rfl
          | true => exact absurd hb3 h3

theorem filterMap_if_sublist_map {α β : Type} (p : α → Bool) (g : α → β) :
    ∀ l : List α,
      List.Sublist (l.filterMap (fun a => if p a then some (g a) else none)) (l.map g) := by
  intro l
  induction l with
  | nil => simp
  | cons a rest ih =>
    rw [List.filterMap_cons, List.map_cons]
    by_cases hp : p a
    · rw [if_pos hp]
      exact List.Sublist.cons₂ _ ih
    · rw [if_neg hp]
      exact List.Sublist.cons _ ih

theorem dedupPrefilter_eids_sublist (md5 : Str → Str) (ek db : List Str)
    (l : List Job) :
    List.Sublist ((dedupPrefilter md5 ek db l).map (fun c => c.external_id))
      ((dedupList md5 l).map (eidOfJob md5)) := by
  rw [dedupPrefilter, dedupPrefilterAux_eq_filterMap, List.map_filterMap]
  have heq :
      (fun j => Option.map (fun c => c.external_id)
        (if _prefilter j ek db then some (toCandidate md5 j) else none)) =
      (fun j => if _prefilter j ek db then some (eidOfJob md5 j) else none) := by
    funext j
    by_cases hp : _prefilter j ek db
    · simp [hp, toCandidate]
    · simp [hp]
  rw [heq]
  exact filterMap_if_sublist_map _ _ _

theorem dedupPrefilter_eids_nodup (md5 : Str → Str) (ek db : List Str)
    (l : List Job) :
    ((dedupPrefilter md5 ek db l).map (fun c => c.external_id)).Nodup :=
  ((dedupAux_nodup md5 [] l).1).sublist (dedupPrefilter_eids_sublist md5 ek db l)

/-!
Lemmas about the aggregation loop.
-/

theorem aggregate_skip_error (m : ℚ) :
    ∀ (l1 l2 : List (Except Unit (Candidate × ParsedResp))),
      aggregate m (l1 ++ Except.error () :: l2) = aggregate m (l1 ++ l2) := by
  intro l1 l2
  induction l1 with
  | nil => simp [aggregate]
  | cons x rest ih =>
    cases x with
    | error e => simp only [List.cons_append, aggregate]; exact ih
    | ok cr =>
      rcases cr with ⟨c, r⟩
      simp only [List.cons_append, aggregate]
      cases ho : r.overall_score with
      | none => rfl
      | some v =>
        cases v with
        | other => rfl
        | num q =>
          simp only []
          by_cases hm : m ≤ q
          · rw [if_pos hm, if_pos hm]
            cases hb : r.breakdown with
            | none => rfl
            | some b => exact congrArg (Except.map (fun out => mkOut c q b :: out)) ih
          · rw [if_neg hm, if_neg hm]; exact ih

theorem aggregate_ok_score (m : ℚ) :
    ∀ (l : List (Except Unit (Candidate × ParsedResp))) (out : List OutJob),
      aggregate m l = Except.ok out → ∀ oj ∈ out, m ≤ oj.score := by
  intro l
  induction l with
  | nil =>
    intro out h oj hmem
    simp only [aggregate] at h
    cases h
    simp at hmem
  | cons x rest ih =>
    intro out h oj hmem
    cases x with
    | error e =>
      simp only [aggregate] at h
      exact ih out h oj hmem
    | ok cr =>
      rcases cr with ⟨c, r⟩
      simp only [aggregate] at h
      cases ho : r.overall_score with
      | none => rw [ho] at h; simp at h
      | some v =>
        cases v with
        | other => rw [ho] at h; simp at h
        | num q =>
          rw [ho] at h
          simp only [] at h
          by_cases hm : m ≤ q
          · rw [if_pos hm] at h
            cases hb : r.breakdown with
            | none => rw [hb] at h; simp at h
            | some b =>
              rw [hb] at h
              simp only [] at h
              cases hr : aggregate m rest with
              | error e2 => rw [hr] at h; simp [Except.map] at h
              | ok out2 =>
                rw [hr] at h
                simp only [Except.map] at h
                cases h
                rcases List.mem_cons.mp hmem with h0 | h0
                · subst h0; exact hm
                · exact ih out2 hr oj h0
          · rw [if_neg hm] at h
            exact ih out h oj hmem

theorem aggregate_ok_src (m : ℚ) :
    ∀ (l : List (Except Unit (Candidate × ParsedResp))) (out : List OutJob),
      aggregate m l = Except.ok out →
      ∀ oj ∈ out, ∃ c r, Except.ok (c, r) ∈ l ∧ oj.raw_data = c.job ∧
        oj.external_id = c.external_id := by
  intro l
  induction l with
  | nil =>
    intro out h oj hmem
    simp only [aggregate] at h
    cases h
    simp at hmem
  | cons x rest ih =>
    intro out h oj hmem
    cases x with
    | error e =>
      simp only [aggregate] at h
      rcases ih out h oj hmem with ⟨c, r, hin, h1, h2⟩
      exact ⟨c, r, List.mem_cons_of_mem _ hin, h1, h2⟩
    | ok cr =>
      rcases cr with ⟨c, r⟩
      simp only [aggregate] at h
      cases ho : r.overall_score with
      | none => rw [ho] at h; simp at h
      | some v =>
        cases v with
        | other => rw [ho] at h; simp at h
        | num q =>
          rw [ho] at h
          simp only [] at h
          by_cases hm : m ≤ q
          · rw [if_pos hm] at h
            cases hb : r.breakdown with
            | none => rw [hb] at h; simp at h
            | some b =>
              rw [hb] at h
              simp only [] at h
              cases hr : aggregate m rest with
              | error e2 => rw [hr] at h; simp [Except.map] at h
              | ok out2 =>
                rw [hr] at h
                simp only [Except.map] at h
                cases h
                rcases List.mem_cons.mp hmem with h0 | h0
                · subst h0
                  exact ⟨c, r, List.mem_cons_self _ _, rfl, rfl⟩
                · rcases ih out2 hr oj h0 with ⟨c2, r2, hin, h1, h2⟩
                  exact ⟨c2, r2, List.mem_cons_of_mem _ hin, h1, h2⟩
          · rw [if_neg hm] at h
            rcases ih out h oj hmem with ⟨c2, r2, hin, h1, h2⟩
            exact ⟨c2, r2, List.mem_cons_of_mem _ hin, h1, h2⟩

theorem aggregate_complete (m : ℚ) :
    ∀ (l : List (Except Unit (Candidate × ParsedResp))) (out : List OutJob)
      (c : Candidate) (r : ParsedResp) (q : ℚ),
      aggregate m l = Except.ok out → Except.ok (c, r) ∈ l →
      r.overall_score = some (JsonVal.num q) → m ≤ q →
      ∃ oj ∈ out, oj.external_id = c.external_id ∧ oj.score = q ∧
        oj.raw_data = c.job := by
  intro l
  induction l with
  | nil => intro out c r q h hin; simp at hin
  | cons x rest ih =>
    intro out c r q h hin ho hq
    cases x with
    | error e =>
      simp only [aggregate] at h
      rcases List.mem_cons.mp hin with h0 | h0
      · cases h0
      · exact ih out c r q h h0 ho hq
    | ok cr =>
      rcases cr with ⟨c0, r0⟩
      simp only [aggregate] at h
      rcases List.mem_cons.mp hin with h0 | h0
      · have hc : c0 = c ∧ r0 = r := by
          cases h0; exact ⟨rfl, rfl⟩
        rcases hc with ⟨hc1, hc2⟩
        subst hc1; subst hc2
        rw [ho] at h
        simp only [] at h
        rw [if_pos hq] at h
        cases hb : r0.breakdown with
        | none => rw [hb] at h; simp at h
        | some b =>
          rw [hb] at h
          simp only [] at h
          cases hr : aggregate m rest with
          | error e2 => rw [hr] at h; simp [Except.map] at h
          | ok out2 =>
            rw [hr] at h
            simp only [Except.map] at h
            cases h
            exact ⟨mkOut c0 q b, List.mem_cons_self _ _, rfl, rfl, rfl⟩
      · cases ho0 : r0.overall_score with
        | none => rw [ho0] at h; simp at h
        | some v =>
          cases v with
          | other => rw [ho0] at h; simp at h
          | num q0 =>
            rw [ho0] at h
            simp only [] at h
            by_cases hm : m ≤ q0
            · rw [if_pos hm] at h
              cases hb : r0.breakdown with
              | none => rw [hb] at h; simp at h
              | some b =>
                rw [hb] at h
                simp only [] at h
                cases hr : aggregate m rest with
                | error e2 => rw [hr] at h; simp [Except.map] at h
                | ok out2 =>
                  rw [hr] at h
                  simp only [Except.map] at h
                  cases h
                  rcases ih out2 c r q hr h0 ho hq with ⟨oj, hmem, h1, h2, h3⟩
                  exact ⟨oj, List.mem_cons_of_mem _ hmem, h1, h2, h3⟩
            · rw [if_neg hm] at h
              exact ih out c r q h h0 ho hq

theorem aggregate_eids_sublist (m : ℚ) :
    ∀ (l : List (Except Unit (Candidate × ParsedResp))) (out : List OutJob),
      aggregate m l = Except.ok out →
      List.Sublist (out.map (fun oj => oj.external_id)) (l.filterMap scoredEid) := by
  intro l
  induction l with
  | nil =>
    intro out h
    simp only [aggregate] at h
    cases h
    simp
  | cons x rest ih =>
    intro out h
    cases x with
    | error e =>
      simp only [aggregate] at h
      simp only [List.filterMap_cons, scoredEid]
      exact ih out h
    | ok cr =>
      rcases cr with ⟨c, r⟩
      simp only [aggregate] at h
      simp only [List.filterMap_cons, scoredEid]
      cases ho : r.overall_score with
      | none => rw [ho] at h; simp at h
      | some v =>
        cases v with
        | other => rw [ho] at h; simp at h
        | num q =>
          rw [ho] at h
          simp only [] at h
          by_cases hm : m ≤ q
          · rw [if_pos hm] at h
            cases hb : r.breakdown with
            | none => rw [hb] at h; simp at h
            | some b =>
              rw [hb] at h
              simp only [] at h
              cases hr : aggregate m rest with
              | error e2 => rw [hr] at h; simp [Except.map] at h
              | ok out2 =>
                rw [hr] at h
                simp only [Except.map] at h
                cases h
                simp only [List.map_cons]
                exact List.Sublist.cons₂ _ (ih out2 hr)
          · rw [if_neg hm] at h
            exact List.Sublist.cons _ (ih out h)

/-!
Lemmas about the bounded-scorer fan-out list.
-/

theorem scoreAllFrom_ok_mem (ctxOk : Bool) (oracle : Nat → OracleOutcome) :
    ∀ (i : Nat) (cands : List Candidate) (c : Candidate) (r : ParsedResp),
      Except.ok (c, r) ∈ scoreAllFrom ctxOk oracle i cands → c ∈ cands := by
  intro i cands
  induction cands generalizing i with
  | nil => intro c r h; simp [scoreAllFrom] at h
  | cons c0 cs ih =>
    intro c r h
    simp only [scoreAllFrom] at h
    rcases List.mem_cons.mp h with h0 | h0
    · by_cases hc : ctxOk
      · rw [if_pos hc] at h0
        cases horc : oracle i with
        | exn => rw [horc] at h0; simp at h0
        | parsed resp =>
          rw [horc] at h0
          simp only [] at h0
          have : c = c0 := by
            cases h0; rfl
          rw [this]
          exact List.mem_cons_self _ _
      · rw [if_neg hc] at h0; simp at h0
    · exact List.mem_cons_of_mem _ (ih (i + 1) c r h0)

theorem scoreAllFrom_eids (ctxOk : Bool) (oracle : Nat → OracleOutcome) :
    ∀ (i : Nat) (cands : List Candidate),
      List.Sublist ((scoreAllFrom ctxOk oracle i cands).filterMap scoredEid)
        (cands.map (fun c => c.external_id)) := by
  intro i cands
  induction cands generalizing i with
  | nil => simp [scoreAllFrom]
  | cons c0 cs ih =>
    simp only [scoreAllFrom, List.filterMap_cons, List.map_cons]
    by_cases hc : ctxOk
    · rw [if_pos hc]
      cases horc : oracle i with
      | exn =>
        simp only [scoredEid]
        exact List.Sublist.cons _ (ih (i + 1))
      | parsed resp =>
        simp only [scoredEid]
        exact List.Sublist.cons₂ _ (ih (i + 1))
    · rw [if_neg hc]
      simp only [scoredEid]
      exact List.Sublist.cons _ (ih (i + 1))

theorem scoreAllFrom_ctx_fail (oracle : Nat → OracleOutcome) :
    ∀ (i : Nat) (cands : List Candidate) (x : Except Unit (Candidate × ParsedResp)),
      x ∈ scoreAllFrom false oracle i cands → x = Except.error () := by
  intro i cands
  induction cands generalizing i with
  | nil => intro x h; simp [scoreAllFrom] at h
  | cons c0 cs ih =>
    intro x h
    simp only [scoreAllFrom] at h
    rcases List.mem_cons.mp h with h0 | h0
    · simpa using h0
    · exact ih (i + 1) x h0

theorem aggregate_all_errors (m : ℚ) :
    ∀ (l : List (Except Unit (Candidate × ParsedResp))),
      (∀ x ∈ l, x = Except.error ()) → aggregate m l = Except.ok [] := by
  intro l
  induction l with
  | nil => intro _; rfl
  | cons x rest ih =>
    intro h
    have hx := h x (List.mem_cons_self _ _)
    subst hx
    simp only [aggregate]
    exact ih (fun y hy => h y (List.mem_cons_of_mem _ hy))

/-!
Lemmas about the final stable descending sort.
-/

theorem sortDesc_mem (l : List OutJob) (oj : OutJob) : oj ∈ sortDesc l ↔ oj ∈ l :=
  (List.perm_insertionSort scoreGE l).mem_iff

theorem sortDesc_sorted (l : List OutJob) : (sortDesc l).Pairwise scoreGE :=
  List.sorted_insertionSort scoreGE l

theorem orderedInsert_filter_score (s : ℚ) (x : OutJob) :
    ∀ l : List OutJob,
      (List.orderedInsert scoreGE x l).filter (fun a => decide (a.score = s)) =
        if x.score = s then x :: l.filter (fun a => decide (a.score = s))
        else l.filter (fun a => decide (a.score = s)) := by
  intro l
  induction l with
  | nil =>
    by_cases hx : x.score = s
    · simp [List.orderedInsert, hx]
    · simp [List.orderedInsert, hx]
  | cons y ys ih =>
    simp only [List.orderedInsert]
    by_cases hr : scoreGE x y
    · rw [if_pos hr]
      by_cases hx : x.score = s
      · simp [List.filter_cons, hx]
      · simp [List.filter_cons, hx]
    · rw [if_neg hr]
      rw [List.filter_cons]
      by_cases hy : y.score = s
      · by_cases hx : x.score = s
        · exact absurd (le_of_eq (hy.trans hx.symm)) hr
        · simp [hy, hx, ih, List.filter_cons]
      · simp [hy, ih, List.filter_cons]

theorem sortDesc_filter_score (s : ℚ) :
    ∀ l : List OutJob,
      (sortDesc l).filter (fun a => decide (a.score = s)) =
        l.filter (fun a => decide (a.score = s)) := by
  intro l
  induction l with
  | nil => rfl
  | cons x xs ih =>
    simp only [sortDesc, List.insertionSort] at ih ⊢
    rw [orderedInsert_filter_score, ih, List.filter_cons]
    by_cases hx : x.score = s
    · rw [if_pos hx]; simp [hx]
    · rw [if_neg hx]; simp [hx]

/-!
Lemmas about flattening and provider-failure neutralization.
-/

theorem flattenResults_append :
    ∀ (a b : List (Except Unit (List Job))),
      flattenResults (a ++ b) = flattenResults a ++ flattenResults b := by
  intro a b
  induction a with
  | nil => rfl
  | cons x rest ih =>
    cases x with
    | error e => simp only [List.cons_append, flattenResults]; exact ih
    | ok jobs =>
      simp only [List.cons_append, flattenResults, List.append_assoc]
      exact congrArg (fun t => jobs ++ t) ih

theorem flattenResults_neutralize :
    ∀ rs : List (Except Unit (List Job)),
      flattenResults (rs.map neutralizeResult) = flattenResults rs := by
  intro rs
  induction rs with
  | nil => rfl
  | cons x rest ih =>
    cases x with
    | error e =>
      simp only [List.map_cons, neutralizeResult, flattenResults]
      exact ih
    | ok jobs =>
      simp only [List.map_cons, neutralizeResult, flattenResults, ih]

theorem except_map_eq_ok {ε α β : Type} (f : α → β) (x : Except ε α) (b : β)
    (h : x.map f = Except.ok b) : ∃ a, x = Except.ok a ∧ b = f a := by
  cases x with
  | error e => simp [Except.map] at h
  | ok a =>
    refine ⟨a, rfl, ?_⟩
    simp only [Except.map] at h
    cases h
    rfl

/-!
Lemmas about the semaphore model.
-/

theorem countInflight_set :
    ∀ (l : List TaskState) (i : Nat) (w v : TaskState),
      l.get? i = some w →
      countInflight (l.set i v) + (if w = TaskState.inflight then 1 else 0) =
        countInflight l + (if v = TaskState.inflight then 1 else 0) := by
  intro l
  induction l with
  | nil => intro i w v h; simp at h
  | cons t ts ih =>
    intro i w v h
    cases i with
    | zero =>
      rw [List.get?_cons_zero] at h
      injection h with h
      subst h
      simp only [List.set, countInflight]
      ring
    | succ n =>
      rw [List.get?_cons_succ] at h
      simp only [List.set, countInflight]
      have h2 := ih n w v h
      omega

theorem countInflight_replicate (n : Nat) :
    countInflight (List.replicate n TaskState.waiting) = 0 := by
  induction n with
  | zero => rfl
  | succ k ih => simp [List.replicate_succ, countInflight, ih]

theorem semStep_preserves_inv (s s' : SchedState) (hstep : SemStep s s')
    (hinv : s.sem + countInflight s.tasks = 5) :
    s'.sem + countInflight s'.tasks = 5 := by
  cases hstep with
  | acquire i s hsem ht =>
    have hset := countInflight_set s.tasks i TaskState.waiting TaskState.inflight ht
    simp at hset
    simp only []
    omega
  | release i s ht =>
    have hset := countInflight_set s.tasks i TaskState.inflight TaskState.done ht
    simp at hset
    simp only []
    omega

theorem schedReachable_inv (n : Nat) (s : SchedState)
    (h : SchedReachable (initSched n) s) :
    s.sem + countInflight s.tasks = 5 := by
  induction h with
  | refl => simp [initSched, countInflight_replicate]
  | step hreach hstep ih => exact semStep_preserves_inv _ _ hstep ih

/-!
Claim theorems.
-/

/-- C1, counterexample: the claim says a response that decodes as JSON but
holds no valid score (here: the oracle answers the second candidate with an
empty JSON object, no `overall_score` key) only drops that candidate and
never aborts the run.  On this concrete two-candidate run the code instead
aborts the whole pipeline with the uncaught `KeyError` from
`score_data["overall_score"]` (line 198): the first, well-scored candidate
is lost too, and no output list is produced. -/
theorem claim1_counterexample :
    (run_discovery idDigest provTwo oracGoodBad prefsFull).1 =
      Except.error RunError.keyError := by decide

/-- C1, amended claim: only a scoring call that raises — an API error or a
response text `json.loads` cannot decode — is recovered per candidate: such
an outcome is skipped by the aggregation loop, the remaining candidates are
threshold-filtered and ranked exactly as they would be without it, and the
run is not aborted by it.  (A response that decodes as JSON but lacks a
numeric `overall_score`, by contrast, aborts the whole run, as the
counterexample shows.) -/
theorem claim1_amended_exception_skipped :
    ∀ (m : ℚ) (l1 l2 : List (Except Unit (Candidate × ParsedResp))),
      aggregate m (l1 ++ Except.error () :: l2) = aggregate m (l1 ++ l2) ∧
      (aggregate m (l1 ++ Except.error () :: l2)).map sortDesc =
        (aggregate m (l1 ++ l2)).map sortDesc := by
  intro m l1 l2
  refine ⟨aggregate_skip_error m l1 l2, ?_⟩
  rw [aggregate_skip_error m l1 l2]

/-- C2: over any flattened listing sequence and any digest function, the
deduplicated output has pairwise-distinct external ids; for every id value
`e` the kept listings with that id are exactly the first input listing with
that id (so the first occurrence wins and all later ones are dropped); and
the output is a subsequence of the input. -/
theorem claim2_dedup_unique_first_subsequence :
    ∀ (md5 : Str → Str) (jobs : List Job) (e : Str),
      ((dedupList md5 jobs).map (eidOfJob md5)).Nodup ∧
      (dedupList md5 jobs).filter (fun j => decide (eidOfJob md5 j = e)) =
        (jobs.filter (fun j => decide (eidOfJob md5 j = e))).take 1 ∧
      List.Sublist (dedupList md5 jobs) jobs := by
  intro md5 jobs e
  exact ⟨(dedupAux_nodup md5 [] jobs).1, dedupList_filter_take md5 e jobs,
    dedupAux_sublist md5 [] jobs⟩

/-- C6: a failed search outcome contributes exactly zero listings to the
flattened sequence (flattening around it is flattening without it), and a
whole run behaves identically when every failing query is replaced by a
query succeeding with an empty listing list — so sibling queries' listings
are deduplicated, prefiltered, scored and ranked exactly as they would
otherwise be and a provider failure never aborts the run. -/
theorem claim6_provider_failure_isolated :
    ∀ (a b : List (Except Unit (List Job))),
      (flattenResults (a ++ Except.error () :: b) =
        flattenResults a ++ flattenResults b) ∧
      ∀ (md5 : Str → Str) (provider : Nat → Except Unit (List Job))
        (oracle : Nat → OracleOutcome) (prefs : Preferences),
        run_discovery md5 (neutralizeProvider provider) oracle prefs =
          run_discovery md5 provider oracle prefs := by
  intro a b
  constructor
  · rw [flattenResults_append]
    rfl
  · intro md5 provider oracle prefs
    cases prefs with
    | mk ek db ms qs tt lr mb ps ip w =>
      cases ek with
      | none => rfl
      | some ek0 =>
        cases db with
        | none => rfl
        | some db0 =>
          cases ms with
          | none => rfl
          | some m =>
            cases qs with
            | none => rfl
            | some qs0 =>
              have h1 : (List.range qs0.length).map (neutralizeProvider provider) =
                  ((List.range qs0.length).map provider).map neutralizeResult := by
                rw [List.map_map]
                rfl
              have hcand :
                  discoveryCandidates md5 (ek0.map lowerStr) (db0.map lowerStr)
                      qs0 (neutralizeProvider provider) =
                  discoveryCandidates md5 (ek0.map lowerStr) (db0.map lowerStr)
                      qs0 provider := by
                unfold discoveryCandidates
                rw [h1, flattenResults_neutralize]
              simp only [run_discovery, pipelineCore, preRanked, hcand]

/-- C8, counterexample: for a listing whose apply-options collection is
present and non-empty but whose first apply-option link is absent/empty,
while the generic link field is non-empty, the claim makes the canonical URL
the (empty) first apply-option link; the code (Python's trailing
`or job.get("link", "")`) instead falls back to the generic link. -/
theorem claim8_counterexample :
    canonicalUrl jobEmptyApply ≠ canonicalUrlClaimed jobEmptyApply := by decide

/-- C8, amended claim: the canonical URL is the first apply-option link when
the apply-options collection is non-empty and that link is itself non-empty;
in every other case it is the generic link field, defaulting to the empty
string with no special-case error; and the external id is exactly the
digest of this canonical URL string. -/
theorem claim8_amended_canonical_url :
    ∀ (md5 : Str → Str) (job : Job),
      canonicalUrl job = canonicalUrlWithFallback job ∧
      eidOfJob md5 job = md5 (canonicalUrl job) := by
  intro md5 job
  constructor
  · simp only [canonicalUrl, canonicalUrlWithFallback]
    cases hopts : job.apply_options.getD [] with
    | nil =>
      by_cases hl : (job.link.getD ([] : Str)).isEmpty
      · rw [if_pos hl]
      · rw [if_neg hl]
    | cons a rest => rfl
  · rfl

/-- C9: starting from `asyncio.Semaphore(5)` with any number of waiting
scoring tasks, every state the bounded scorer's scheduler can reach has at
most 5 oracle calls in flight: the semaphore enforces a strict ceiling on
simultaneously executing oracle invocations, not a throughput average. -/
theorem claim9_bounded_concurrency :
    ∀ (n : Nat) (s : SchedState),
      SchedReachable (initSched n) s → countInflight s.tasks ≤ 5 := by
  intro n s h
  have hinv := schedReachable_inv n s h
  omega

/-- Witness for C9 at a concrete reachable state. -/
theorem claim9_bounded_concurrency_witness :
    SchedReachable (initSched 7) (initSched 7) ∧
      countInflight (initSched 7).tasks ≤ 5 :=
  ⟨SchedReachable.refl,
   claim9_bounded_concurrency 7 (initSched 7) SchedReachable.refl⟩

/-- C3: whenever the pre-sort stage produces a list `pre` (which is in
discovery order: its external ids are a subsequence of the deduplicated
candidates' ids, the order the Deduplicator established, and `gather`
preserves submission order independent of completion order), the pipeline
output is exactly the stable descending sort of `pre`: it is sorted by
`overall_score` descending, and for each score value the output lists the
candidates with that score in exactly their `pre` (= discovery) order. -/
theorem claim3_ranking_sorted_stable :
    ∀ (md5 : Str → Str) (ek db : List Str) (m : ℚ) (qs : List Str)
      (provider : Nat → Except Unit (List Job)) (ctxOk : Bool)
      (oracle : Nat → OracleOutcome) (pre : List OutJob),
      preRanked md5 ek db m qs provider ctxOk oracle = Except.ok pre →
      pipelineCore md5 ek db m qs provider ctxOk oracle =
        Except.ok (sortDesc pre) ∧
      (sortDesc pre).Pairwise scoreGE ∧
      (∀ s : ℚ, (sortDesc pre).filter (fun a => decide (a.score = s)) =
        pre.filter (fun a => decide (a.score = s))) ∧
      List.Sublist (pre.map (fun oj => oj.external_id))
        ((discoveryCandidates md5 ek db qs provider).map
          (fun c => c.external_id)) := by
  intro md5 ek db m qs provider ctxOk oracle pre h
  refine ⟨?_, sortDesc_sorted pre, fun s => sortDesc_filter_score s pre, ?_⟩
  · simp only [pipelineCore, h, Except.map]
  · simp only [preRanked] at h
    have h1 := aggregate_eids_sublist m _ pre h
    exact h1.trans (scoreAllFrom_eids ctxOk oracle 0 _)

/-- Witness for C3 on a concrete run with two equal-scored candidates. -/
theorem claim3_ranking_sorted_stable_witness :
    preRanked idDigest ekFull dbFull 1 qsFull provTwo true oracGood =
      Except.ok preTwo ∧
    (pipelineCore idDigest ekFull dbFull 1 qsFull provTwo true oracGood =
        Except.ok (sortDesc preTwo) ∧
      (sortDesc preTwo).Pairwise scoreGE ∧
      (∀ s : ℚ, (sortDesc preTwo).filter (fun a => decide (a.score = s)) =
        preTwo.filter (fun a => decide (a.score = s))) ∧
      List.Sublist (preTwo.map (fun oj => oj.external_id))
        ((discoveryCandidates idDigest ekFull dbFull qsFull provTwo).map
          (fun c => c.external_id))) :=
  ⟨by decide,
   claim3_ranking_sorted_stable idDigest ekFull dbFull 1 qsFull provTwo true
     oracGood preTwo (by decide)⟩

/-- C4: the prefilter keeps a job exactly when its lower-cased title
contains no excluded keyword as a substring and either its lower-cased
location contains no dealbreaker substring or its lower-cased description
contains "remote"; consequently every entry of a successful pipeline output
has a raw listing whose lower-cased title contains no excluded keyword. -/
theorem claim4_prefilter_rule_and_exclusion :
    (∀ (job : Job) (ek db : List Str),
      _prefilter job ek db = true ↔
        ((∀ kw ∈ ek, isSubstrOf kw (lowerStr (job.title.getD [])) = false) ∧
         ((∀ d ∈ db, isSubstrOf d (lowerStr (job.location.getD [])) = false) ∨
          isSubstrOf remoteStr (lowerStr (job.description.getD [])) = true))) ∧
    (∀ (md5 : Str → Str) (ek db : List Str) (m : ℚ) (qs : List Str)
      (provider : Nat → Except Unit (List Job)) (ctxOk : Bool)
      (oracle : Nat → OracleOutcome) (out : List OutJob),
      pipelineCore md5 ek db m qs provider ctxOk oracle = Except.ok out →
      ∀ oj ∈ out, ∀ kw ∈ ek,
        isSubstrOf kw (lowerStr (oj.raw_data.title.getD [])) = false) := by
  constructor
  · exact prefilter_true_iff
  · intro md5 ek db m qs provider ctxOk oracle out h oj hmem kw hkw
    simp only [pipelineCore, preRanked] at h
    rcases except_map_eq_ok sortDesc _ out h with ⟨pre, hpre, hout⟩
    subst hout
    rcases aggregate_ok_src m _ pre hpre oj ((sortDesc_mem pre oj).mp hmem)
      with ⟨c, r, hin, hraw, _⟩
    have hcmem := scoreAllFrom_ok_mem ctxOk oracle 0 _ c r hin
    rcases mem_dedupPrefilter md5 ek db _ c hcmem with ⟨j, _, hceq, hp⟩
    have hjob : oj.raw_data = j := by rw [hraw, hceq]; rfl
    rw [hjob]
    exact ((prefilter_true_iff j ek db).mp hp).1 kw hkw

/-- Witness for C4's output-exclusion part on a concrete run. -/
theorem claim4_prefilter_rule_and_exclusion_witness :
    pipelineCore idDigest ekFull dbFull 1 qsFull provOne true oracGood =
      Except.ok outOne ∧
    (∀ oj ∈ outOne, ∀ kw ∈ ekFull,
      isSubstrOf kw (lowerStr (oj.raw_data.title.getD [])) = false) :=
  ⟨by decide,
   claim4_prefilter_rule_and_exclusion.2 idDigest ekFull dbFull 1 qsFull
     provOne true oracGood outOne (by decide)⟩

/-- C5, counterexample: `prefsNoTitles` is a PreferenceSet with the required
field `target_titles` missing, yet the run does not fail at all, let alone
before external calls: the search for the configured query is issued
(`searchCalls` is the full query list) — the missing field only makes every
scoring task raise `KeyError` inside `_scoring_context`, silently captured
by `gather`, so the run completes with an empty output and zero oracle
calls. -/
theorem claim5_counterexample :
    run_discovery idDigest provOne oracGood prefsNoTitles =
      (Except.ok [], { searchCalls := qsFull, oracleCalls := 0 }) := by
  decide

/-- C5, amended claim: only the four fields read before the search fan-out —
excluded keywords, dealbreakers, minimum score to surface, and the query
list — abort the run (before any external call, with an empty call trace)
when missing.  A PreferenceSet missing any field that only
`_scoring_context` reads does not abort: unless the run already failed on
one of the four eager fields, it completes with an empty output list and
zero oracle calls, the searches having been issued. -/
theorem claim5_config_behavior :
    ∀ (md5 : Str → Str) (provider : Nat → Except Unit (List Job))
      (oracle : Nat → OracleOutcome) (prefs : Preferences),
      ((prefs.exclude_keywords.isNone || prefs.dealbreakers.isNone ||
          prefs.minimum_score_to_surface.isNone ||
          prefs.search_queries.isNone) = true →
        run_discovery md5 provider oracle prefs =
          (Except.error RunError.configError,
           { searchCalls := [], oracleCalls := 0 })) ∧
      (scoringContextOk prefs = false →
        (run_discovery md5 provider oracle prefs).1 =
            Except.error RunError.configError ∨
        ((run_discovery md5 provider oracle prefs).1 = Except.ok [] ∧
         (run_discovery md5 provider oracle prefs).2.oracleCalls = 0)) := by
  intro md5 provider oracle prefs
  cases prefs with
  | mk ek db ms qs tt lr mb ps ip w =>
    cases ek with
    | none => exact ⟨fun _ => rfl, fun _ => Or.inl rfl⟩
    | some ek0 =>
      cases db with
      | none => exact ⟨fun _ => rfl, fun _ => Or.inl rfl⟩
      | some db0 =>
        cases ms with
        | none => exact ⟨fun _ => rfl, fun _ => Or.inl rfl⟩
        | some m =>
          cases qs with
          | none => exact ⟨fun _ => rfl, fun _ => Or.inl rfl⟩
          | some qs0 =>
            constructor
            · intro hcontra
              simp at hcontra
            · intro hctx
              right
              constructor
              · simp only [run_discovery, pipelineCore, preRanked, hctx]
                rw [aggregate_all_errors m
                  (scoreAll false oracle
                    (discoveryCandidates md5 (List.map lowerStr ek0)
                      (List.map lowerStr db0) qs0 provider))
                  (fun x hx => scoreAllFrom_ctx_fail oracle 0 _ x hx)]
                rfl
              · simp only [run_discovery, hctx]
                rfl

/-- Witness for C5's amended behaviour at a concrete PreferenceSet with
`target_titles` missing. -/
theorem claim5_config_behavior_witness :
    scoringContextOk prefsNoTitles = false ∧
    ((run_discovery idDigest provOne oracGood prefsNoTitles).1 =
        Except.error RunError.configError ∨
      ((run_discovery idDigest provOne oracGood prefsNoTitles).1 =
          Except.ok [] ∧
       (run_discovery idDigest provOne oracGood prefsNoTitles).2.oracleCalls = 0)) :=
  ⟨by decide,
   (claim5_config_behavior idDigest provOne oracGood prefsNoTitles).2 (by decide)⟩

/-- C7: on every successful run, each output entry's score is at least the
minimum score to surface, and conversely every candidate whose scoring
outcome decoded to a numeric `overall_score` at or above the threshold
appears in the output (with that score, under its external id). -/
theorem claim7_threshold :
    ∀ (md5 : Str → Str) (ek db : List Str) (m : ℚ) (qs : List Str)
      (provider : Nat → Except Unit (List Job)) (ctxOk : Bool)
      (oracle : Nat → OracleOutcome) (out : List OutJob),
      pipelineCore md5 ek db m qs provider ctxOk oracle = Except.ok out →
      (∀ oj ∈ out, m ≤ oj.score) ∧
      (∀ (c : Candidate) (r : ParsedResp) (q : ℚ),
        Except.ok (c, r) ∈
          scoreAll ctxOk oracle (discoveryCandidates md5 ek db qs provider) →
        r.overall_score = some (JsonVal.num q) → m ≤ q →
        ∃ oj ∈ out, oj.external_id = c.external_id ∧ oj.score = q) := by
  intro md5 ek db m qs provider ctxOk oracle out h
  simp only [pipelineCore, preRanked] at h
  rcases except_map_eq_ok sortDesc _ out h with ⟨pre, hpre, hout⟩
  subst hout
  constructor
  · intro oj hmem
    exact aggregate_ok_score m _ pre hpre oj ((sortDesc_mem pre oj).mp hmem)
  · intro c r q hin ho hq
    rcases aggregate_complete m _ pre c r q hpre hin ho hq
      with ⟨oj, hmem, h1, h2, _⟩
    exact ⟨oj, (sortDesc_mem pre oj).mpr hmem, h1, h2⟩

/-- Witness for C7 on a concrete run. -/
theorem claim7_threshold_witness :
    pipelineCore idDigest ekFull dbFull 1 qsFull provOne true oracGood =
      Except.ok outOne ∧
    ((∀ oj ∈ outOne, (1 : ℚ) ≤ oj.score) ∧
     (∀ (c : Candidate) (r : ParsedResp) (q : ℚ),
        Except.ok (c, r) ∈
          scoreAll true oracGood
            (discoveryCandidates idDigest ekFull dbFull qsFull provOne) →
        r.overall_score = some (JsonVal.num q) → (1 : ℚ) ≤ q →
        ∃ oj ∈ outOne, oj.external_id = c.external_id ∧ oj.score = q)) :=
  ⟨by decide,
   claim7_threshold idDigest ekFull dbFull 1 qsFull provOne true oracGood
     outOne (by decide)⟩

/-- C10 (implicit): a prefilter-rejected listing still registers its
external id in the `seen` set.  Concretely: the candidate list never repeats
a canonical URL (so at most one oracle call is made per distinct canonical
URL per run), and whenever the first listing of the flattened input carrying
external id `e` is rejected by the prefilter, no candidate with id `e`
exists at all — any later listing with a byte-identical canonical URL is
dropped at deduplication and never scored, even if it would itself pass the
prefilter. -/
theorem claim10_dedup_poisoning :
    ∀ (md5 : Str → Str) (ek db : List Str) (jobs : List Job) (e : Str)
      (jf : Job),
      ((dedupPrefilter md5 ek db jobs).map (fun c => c.url)).Nodup ∧
      ((jobs.filter (fun j => decide (eidOfJob md5 j = e))).head? = some jf →
        _prefilter jf ek db = false →
        ∀ c ∈ dedupPrefilter md5 ek db jobs, c.external_id ≠ e) := by
  intro md5 ek db jobs e jf
  constructor
  · have hmap : (dedupPrefilter md5 ek db jobs).map (fun c => c.external_id) =
        ((dedupPrefilter md5 ek db jobs).map (fun c => c.url)).map md5 := by
      rw [List.map_map]
      apply List.map_congr_left
      intro c hc
      rcases mem_dedupPrefilter md5 ek db jobs c hc with ⟨j, _, hceq, _⟩
      subst hceq
      rfl
    have h1 := dedupPrefilter_eids_nodup md5 ek db jobs
    rw [hmap] at h1
    exact h1.of_map
  · intro hhead hpf c hc hce
    rcases mem_dedupPrefilter md5 ek db jobs c hc with ⟨j, hjmem, hceq, hp⟩
    subst hceq
    have hej : eidOfJob md5 j = e := hce
    have hjf : j ∈ (dedupList md5 jobs).filter
        (fun x => decide (eidOfJob md5 x = e)) :=
      List.mem_filter.mpr ⟨hjmem, by simp [hej]⟩
    rw [dedupList_filter_take md5 e jobs] at hjf
    cases hl : jobs.filter (fun x => decide (eidOfJob md5 x = e)) with
    | nil =>
      rw [hl] at hjf
      simp at hjf
    | cons j0 rest =>
      rw [hl] at hjf hhead
      simp only [List.head?] at hhead
      have hj0 : j0 = jf := by
        cases hhead; rfl
      subst hj0
      simp only [List.take] at hjf
      rcases List.mem_singleton.mp hjf with hjeq
      subst hjeq
      rw [hp] at hpf
      cases hpf

/-- Witness for C10 on a concrete input where the first listing with URL
"u1" is prefilter-rejected and a later listing shares that URL. -/
theorem claim10_dedup_poisoning_witness :
    ([jobOffice, jobSeniorU1].filter
        (fun j => decide (eidOfJob idDigest j = "u1".toList))).head? =
      some jobOffice ∧
    _prefilter jobOffice ekFull dbFull = false ∧
    ∀ c ∈ dedupPrefilter idDigest ekFull dbFull [jobOffice, jobSeniorU1],
      c.external_id ≠ "u1".toList :=
  ⟨by decide, by decide,
   (claim10_dedup_poisoning idDigest ekFull dbFull [jobOffice, jobSeniorU1]
      ("u1".toList) jobOffice).2 (by decide) (by decide)⟩

end JobHunter
